import Mathlib

/-!
Verification of the Ising-model Monte-Carlo simulator (`ising_manual.py`,
`ising_pymc3.py`) against its natural-language specification.

The lattice is a 2D numpy array of spins.  We embed it as a structure carrying
the two dimensions and a total cell function; a read of `lattice[i, j]` is
`readCell`, which returns `none` exactly when numpy would raise `IndexError`
(all indices produced by the source are non-negative, so only the upper bounds
matter).  Python's `%` on a positive modulus agrees with `Int.emod`; `% 0`
raises `ZeroDivisionError`, embedded as `none` in `pymod`.
-/

namespace Ising

/-- A 2D spin lattice: `rows × cols` array of integers.
`rows` is `shape[0]` (the global `height` used to build the array in
`simulate`), `cols` is `shape[1]` (the global `width`). -/
structure Lattice where
  rows : Nat
  cols : Nat
  cell : Nat → Nat → Int

/-- `lattice[i, j]` for non-negative indices: `none` models numpy's
`IndexError` on an out-of-range index. -/
def readCell (l : Lattice) (i j : Nat) : Option Int :=
  if i < l.rows ∧ j < l.cols then some (l.cell i j) else none

/-- Python's `x % m` for a positive modulus `m` (always in `[0, m)`). -/
def wrapIdx (x : Int) (m : Nat) : Nat :=
  (x % (m : Int)).toNat

/-- Python's `x % m` on integers: `ZeroDivisionError` (`none`) for `m = 0`. -/
def pymod (x : Int) (m : Nat) : Option Nat :=
  if m = 0 then none else some (wrapIdx x m)

/-- One iteration of the neighbour loop of `get_dH` for offset `d = (di, dj)`:

    ii = (i + di) % height
    jj = (j + dj) % width
    H -= lattice[ii, jj] * lattice[i, j]
    Hflip -= lattice[ii, jj] * (-lattice[i, j])

It returns the two subtracted products `(lattice[ii,jj] * lattice[i,j],
lattice[ii,jj] * (-lattice[i,j]))`.  NOTE the source unpacks
`width, height = lattice.shape`, and the numpy shape is `(rows, cols)`:
so the local `width` is `rows` and the local `height` is `cols`, i.e. the
row offset is reduced modulo the number of columns and vice versa. -/
def bond (l : Lattice) (i j : Nat) (d : Int × Int) : Option (Int × Int) :=
  let width := l.rows
  let height := l.cols
  (pymod ((i : Int) + d.1) height).bind fun ii =>
  (pymod ((j : Int) + d.2) width).bind fun jj =>
  (readCell l ii jj).bind fun nb =>
  (readCell l i j).bind fun s =>
  some (nb * s, nb * (-s))

/-- `get_dH(lattice, trial_location)` from `ising_manual.py`: the energy
change if the spin at `trial_location` flips.  The loop over the four
von-Neumann offsets `(-1,0), (1,0), (0,-1), (0,1)` accumulates `H` and
`Hflip` starting from 0; the function returns `Hflip - H`. -/
def get_dH (l : Lattice) (loc : Nat × Nat) : Option Int :=
  (bond l loc.1 loc.2 (-1, 0)).bind fun b1 =>
  (bond l loc.1 loc.2 (1, 0)).bind fun b2 =>
  (bond l loc.1 loc.2 (0, -1)).bind fun b3 =>
  (bond l loc.1 loc.2 (0, 1)).bind fun b4 =>
  let H := -b1.1 - b2.1 - b3.1 - b4.1
  let Hflip := -b1.2 - b2.2 - b3.2 - b4.2
  some (Hflip - H)

/-- `lattice[i, j] = -lattice[i, j]`: the in-place spin flip performed by
`simulate` (the spec's `flip` operation). -/
def flip (l : Lattice) (i j : Nat) : Lattice :=
  { l with cell := fun a b => if a = i ∧ b = j then -(l.cell a b) else l.cell a b }

/-- The spec's neighbour sum: the four von-Neumann neighbour spins of
`(i, j)`, the row offset wrapped modulo `rows` (the height) and the column
offset wrapped modulo `cols` (the width). -/
def nbrSum (l : Lattice) (i j : Nat) : Int :=
  l.cell (wrapIdx ((i : Int) - 1) l.rows) j +
  l.cell (wrapIdx ((i : Int) + 1) l.rows) j +
  l.cell i (wrapIdx ((j : Int) - 1) l.cols) +
  l.cell i (wrapIdx ((j : Int) + 1) l.cols)

-- A concrete 2×2 all-(+1) lattice, and further fixtures used by the
-- concrete instances below.
def allOnes2 : Lattice := ⟨2, 2, fun _ _ => 1⟩

/-- 2 rows × 3 cols, all cells +1 (a non-square lattice). -/
def latNS : Lattice := ⟨2, 3, fun _ _ => 1⟩

/-- 3 rows × 2 cols, all cells +1 (a non-square lattice). -/
def lat32 : Lattice := ⟨3, 2, fun _ _ => 1⟩

/-- The degenerate 1×1 lattice holding +1. -/
def lat1 : Lattice := ⟨1, 1, fun _ _ => 1⟩

/-- 2×2 lattice with +1 at (0,0) and -1 elsewhere: flipping (0,0) lowers
the energy (`dH = -8`). -/
def latNeg : Lattice := ⟨2, 2, fun i j => if i = 0 ∧ j = 0 then 1 else -1⟩

/-- 2×2 lattice with +1 on row 0 and -1 on row 1: the flip delta at (0,0)
is exactly 0. -/
def latMix : Lattice := ⟨2, 2, fun i _ => if i = 0 then 1 else -1⟩

/-- A rendered snapshot: the `[red, green, blue]` channel arrays produced by
`to_two_color`. -/
def Frame : Type := (Nat → Nat → Int) × (Nat → Nat → Int) × (Nat → Nat → Int)

/-- `to_two_color(lattice)` from `ising_manual.py`:
`blue` is all 255, `red` is 255 exactly where the lattice is negative,
`green = red`. -/
def to_two_color (l : Lattice) : Frame :=
  let blue : Nat → Nat → Int := fun _ _ => 255
  let red : Nat → Nat → Int := fun i j => if l.cell i j < 0 then 255 else 0
  let green := red
  (red, green, blue)

/-- `lattice = 2 * np.random.randint(2, size=(height, width)) - 1`:
each cell is `2*b - 1` for an independent random bit `b`. -/
def initLattice (hgt wdt : Nat) (bits : Nat → Nat → Bool) : Lattice :=
  ⟨hgt, wdt, fun i j => 2 * (if bits i j then 1 else 0) - 1⟩

/-- The per-site body of the sweep loops in `simulate`:

    dE = get_dH(lattice, (i, j))
    if dE < 0:
        lattice[i, j] = -lattice[i, j]
    else:
        probability = np.exp(-dE / T)
        switch = np.random.rand() < probability
        if switch:
            lattice[i, j] = -lattice[i, j]

The random stream is modelled by `rng : Nat → Real` together with the index
`k` of the next unconsumed draw; `np.random.rand()` returns `rng k` and
advances the index. -/
noncomputable def siteStep (T : Real) (rng : Nat → Real) (l : Lattice)
    (i j k : Nat) : Option (Lattice × Nat) :=
  (get_dH l (i, j)).map fun (dE : Int) =>
    if dE < 0 then
      (flip l i j, k)
    else
      let probability := Real.exp (-(dE : Real) / T)
      let switch := rng k < probability
      if switch then (flip l i j, k + 1) else (l, k + 1)

/-- One sweep: `for i in range(height): for j in range(width): ...` over the
per-site decision, threading the lattice and the random-stream index. -/
noncomputable def sweep (T : Real) (rng : Nat → Real) (hgt wdt : Nat)
    (st : Lattice × Nat) : Option (Lattice × Nat) :=
  (List.range hgt).foldlM
    (fun s i => (List.range wdt).foldlM
      (fun s' j => siteStep T rng s'.1 i j s'.2) s) st

/-- The sites of one sweep in row-major raster order: all columns of row 0,
then row 1, and so on. -/
def raster : Nat → Nat → List (Nat × Nat)
  | 0, _ => []
  | h + 1, w => raster h w ++ (List.range w).map fun j => (h, j)

/-- `for step in range(5)`: the five sweeps performed between snapshots. -/
noncomputable def fiveSweeps (T : Real) (rng : Nat → Real) (hgt wdt : Nat)
    (st : Lattice × Nat) : Option (Lattice × Nat) :=
  (List.range 5).foldlM (fun s _ => sweep T rng hgt wdt s) st

/-- The snapshot loop of `simulate`: `for snapshot in range(N)` appends
`to_two_color(lattice)` to `snapshots` and then performs the five sweeps.
(The `print` of the net magnetization is I/O with no effect on the state.) -/
noncomputable def sampleLoop (T : Real) (rng : Nat → Real) (hgt wdt : Nat) :
    Nat → Lattice × Nat → List Frame → Option (List Frame × (Lattice × Nat))
  | 0, st, snapshots => some (snapshots, st)
  | n + 1, st, snapshots =>
      (fiveSweeps T rng hgt wdt st).bind fun st' =>
        sampleLoop T rng hgt wdt n st' (snapshots ++ [to_two_color st.1])

/-- `simulate(N)` from `ising_manual.py`: randomly fill the spins with to
±1, run `N` snapshot steps, and return the snapshot list. -/
noncomputable def simulate (T : Real) (rng : Nat → Real)
    (bits : Nat → Nat → Bool) (hgt wdt N : Nat) : Option (List Frame) :=
  (sampleLoop T rng hgt wdt N (initLattice hgt wdt bits, 0) []).map Prod.fst

/-- `bond` translated statement-by-statement with the lattice state threaded
through every array access, to record that no access writes to it. -/
def bondRun (i j : Nat) (d : Int × Int) (l : Lattice) :
    Option (Int × Int) × Lattice :=
  match pymod ((i : Int) + d.1) l.cols with
  | none => (none, l)
  | some ii =>
    match pymod ((j : Int) + d.2) l.rows with
    | none => (none, l)
    | some jj =>
      match readCell l ii jj with
      | none => (none, l)
      | some nb =>
        match readCell l i j with
        | none => (none, l)
        | some s => (some (nb * s, nb * (-s)), l)

/-- `get_dH` as a state transformer on the lattice: each neighbour bond is
evaluated against the lattice state left by the previous one, and the final
lattice state is returned alongside the result. -/
def get_dH_run (l : Lattice) (loc : Nat × Nat) : Option Int × Lattice :=
  match bondRun loc.1 loc.2 (-1, 0) l with
  | (none, l1) => (none, l1)
  | (some b1, l1) =>
    match bondRun loc.1 loc.2 (1, 0) l1 with
    | (none, l2) => (none, l2)
    | (some b2, l2) =>
      match bondRun loc.1 loc.2 (0, -1) l2 with
      | (none, l3) => (none, l3)
      | (some b3, l3) =>
        match bondRun loc.1 loc.2 (0, 1) l3 with
        | (none, l4) => (none, l4)
        | (some b4, l4) =>
          let H := -b1.1 - b2.1 - b3.1 - b4.1
          let Hflip := -b1.2 - b2.2 - b3.2 - b4.2
          (some (Hflip - H), l4)

namespace Magnetism

/-- `Magnetism.get_internal_energy(lattice)` from `ising_pymc3.py`: the
lattice there holds 0/1 values, the spin is `2*cell - 1`, and

    hshift = tt.roll(lattice, 1, axis=1)   -- hshift[i,j] = lattice[i, (j-1) % cols]
    vshift = tt.roll(lattice, 1, axis=0)   -- vshift[i,j] = lattice[(i-1) % rows, j]
    H = -(((2*lattice-1) * (2*hshift-1)).sum() + ((2*lattice-1) * (2*vshift-1)).sum())
-/
def get_internal_energy (l : Lattice) : Int :=
  -(((Finset.range l.rows).sum fun i => (Finset.range l.cols).sum fun j =>
      (2 * l.cell i j - 1) * (2 * l.cell i (wrapIdx ((j : Int) - 1) l.cols) - 1))
    + ((Finset.range l.rows).sum fun i => (Finset.range l.cols).sum fun j =>
      (2 * l.cell i j - 1) * (2 * l.cell (wrapIdx ((i : Int) - 1) l.rows) j - 1)))

end Magnetism

/-- Flip of a site in the 0/1 representation used by `ising_pymc3.py`
(`BinaryGibbsMetropolis` proposes `v -> 1 - v`). -/
def flip01 (l : Lattice) (i j : Nat) : Lattice :=
  { l with cell := fun a b => if a = i ∧ b = j then 1 - l.cell a b else l.cell a b }

/-- The ±1 lattice corresponding to a 0/1 lattice: `s = 2*v - 1`. -/
def toSpin (l : Lattice) : Lattice :=
  { l with cell := fun a b => 2 * l.cell a b - 1 }

/-- A 2×2 lattice of 0/1 values (1 on the diagonal). -/
def V2 : Lattice := ⟨2, 2, fun i j => if i = j then 1 else 0⟩

/-- A fixed all-zero random stream. -/
def rng0 : Nat → Real := fun _ => 0

/-- A fixed all-false bit stream (every initial cell becomes -1). -/
def bits0 : Nat → Nat → Bool := fun _ _ => false


/-! ### Arithmetic helper lemmas about the wrapped indices -/

theorem wrapIdx_lt (m : Nat) (hm : 0 < m) (x : Int) : wrapIdx x m < m := by
  have h1 : 0 ≤ x % (m : Int) := Int.emod_nonneg x (by exact_mod_cast hm.ne')
  have h2 : x % (m : Int) < (m : Int) := Int.emod_lt_of_pos x (by exact_mod_cast hm)
  unfold wrapIdx
  omega

theorem wrapIdx_coe (m j : Nat) (hj : j < m) : wrapIdx (j : Int) m = j := by
  have h : (j : Int) % (m : Int) = j :=
    Int.emod_eq_of_lt (by positivity) (by exact_mod_cast hj)
  unfold wrapIdx
  omega

theorem wrapIdx_add_one (m j : Nat) : wrapIdx ((j : Int) + 1) m = (j + 1) % m := by
  unfold wrapIdx
  have h : ((j : Int) + 1) % (m : Int) = (((j + 1) % m : Nat) : Int) := by
    push_cast
    ring_nf
  omega

theorem succ_mod_ne_self (m j : Nat) (hm : 2 ≤ m) (hj : j < m) : (j + 1) % m ≠ j := by
  rcases Nat.lt_or_ge (j + 1) m with h | h
  · rw [Nat.mod_eq_of_lt h]; omega
  · have hjm : j + 1 = m := by omega
    rw [hjm, Nat.mod_self]
    omega

theorem wrapIdx_shift_ne (m i : Nat) (d : Int) (hm : 2 ≤ m)
    (hd : d = 1 ∨ d = -1) : wrapIdx ((i : Int) + d) m ≠ i := by
  intro h
  have hm0 : (0 : Int) < (m : Int) := by exact_mod_cast (by omega : 0 < m)
  have h0 : 0 ≤ ((i : Int) + d) % (m : Int) := Int.emod_nonneg _ (by omega)
  have heq : ((i : Int) + d) % (m : Int) = (i : Int) := by
    unfold wrapIdx at h
    omega
  have hi : (i : Int) < (m : Int) := by
    have := Int.emod_lt_of_pos ((i : Int) + d) hm0
    omega
  have hii : (i : Int) % (m : Int) = (i : Int) :=
    Int.emod_eq_of_lt (by positivity) hi
  have hsub : (((i : Int) + d) - (i : Int)) % (m : Int) = 0 :=
    Int.emod_eq_emod_iff_emod_sub_eq_zero.mp (heq.trans hii.symm)
  have hd0 : d % (m : Int) = 0 := by
    have : ((i : Int) + d) - (i : Int) = d := by ring
    rwa [this] at hsub
  have hdvd : (m : Int) ∣ d := Int.dvd_of_emod_eq_zero hd0
  have hone : (m : Int) ∣ 1 := by
    rcases hd with rfl | rfl
    · exact hdvd
    · exact (Int.dvd_neg).mp hdvd
  have := Int.le_of_dvd one_pos hone
  omega

theorem wrapIdx_sub_one_shift (m j y : Nat) (hm : 0 < m) (hj : j < m) (hy : y < m)
    (h : wrapIdx ((y : Int) - 1) m = j) : y = (j + 1) % m := by
  have hm0 : ((m : Int)) ≠ 0 := by exact_mod_cast hm.ne'
  have h0 : 0 ≤ ((y : Int) - 1) % (m : Int) := Int.emod_nonneg _ hm0
  have heq : ((y : Int) - 1) % (m : Int) = (j : Int) := by
    unfold wrapIdx at h
    omega
  have hys : (y : Int) % (m : Int) = ((j : Int) + 1) % (m : Int) := by
    have h1 : (((y : Int) - 1) % (m : Int) + 1) % (m : Int) = ((y : Int) - 1 + 1) % (m : Int) :=
      Int.emod_add_emod _ _ _
    rw [heq] at h1
    have h2 : (y : Int) - 1 + 1 = (y : Int) := by ring
    rw [h2] at h1
    exact h1.symm
  have hyy : (y : Int) % (m : Int) = (y : Int) :=
    Int.emod_eq_of_lt (by positivity) (by exact_mod_cast hy)
  have hcast : ((j : Int) + 1) % (m : Int) = (((j + 1) % m : Nat) : Int) := by
    push_cast
    ring_nf
  omega

theorem wrapIdx_sub_one_ne (m j : Nat) (hm : 2 ≤ m) (hj : j < m) :
    wrapIdx ((j : Int) - 1) m ≠ j := by
  intro h
  have := wrapIdx_sub_one_shift m j j (by omega) hj hj h
  exact succ_mod_ne_self m j hm hj this.symm

theorem wrapIdx_pred_succ (m j : Nat) (hm : 0 < m) (hj : j < m) :
    wrapIdx ((((j + 1) % m : Nat) : Int) - 1) m = j := by
  have hm0 : ((m : Int)) ≠ 0 := by exact_mod_cast hm.ne'
  have hcast : (((j + 1) % m : Nat) : Int) = ((j : Int) + 1) % (m : Int) := by
    push_cast
    ring_nf
  have h1 : (((j : Int) + 1) % (m : Int) - 1) % (m : Int) = ((j : Int) + 1 - 1) % (m : Int) := by
    conv_lhs => rw [Int.sub_emod]
    conv_rhs => rw [Int.sub_emod]
    rw [Int.emod_emod_of_dvd _ dvd_rfl]
  have h2 : ((j : Int) + 1 - 1) % (m : Int) = (j : Int) := by
    have : (j : Int) + 1 - 1 = (j : Int) := by ring
    rw [this]
    exact Int.emod_eq_of_lt (by positivity) (by exact_mod_cast hj)
  unfold wrapIdx
  rw [hcast, h1, h2]
  omega

/-! ### Evaluating `bond` and `get_dH` -/

theorem readCell_of_lt (l : Lattice) (i j : Nat) (hi : i < l.rows) (hj : j < l.cols) :
    readCell l i j = some (l.cell i j) := by
  simp [readCell, hi, hj]

theorem pymod_of_pos (x : Int) (m : Nat) (hm : 0 < m) :
    pymod x m = some (wrapIdx x m) := by
  simp [pymod, hm.ne']

theorem bond_eval (l : Lattice) (i j : Nat) (d : Int × Int)
    (hr0 : 0 < l.rows) (hc0 : 0 < l.cols)
    (hii : wrapIdx ((i : Int) + d.1) l.cols < l.rows)
    (hjj : wrapIdx ((j : Int) + d.2) l.rows < l.cols)
    (hi : i < l.rows) (hj : j < l.cols) :
    bond l i j d = some
      (l.cell (wrapIdx ((i : Int) + d.1) l.cols) (wrapIdx ((j : Int) + d.2) l.rows)
        * l.cell i j,
       l.cell (wrapIdx ((i : Int) + d.1) l.cols) (wrapIdx ((j : Int) + d.2) l.rows)
        * (-l.cell i j)) := by
  simp only [bond]
  rw [pymod_of_pos _ _ hc0, pymod_of_pos _ _ hr0]
  simp [readCell_of_lt l _ _ hii hjj, readCell_of_lt l i j hi hj]

/-- On a square lattice the swapped moduli are harmless and `get_dH` returns
the spec's flip delta `2 * s * (sum of the four wrapped neighbours)`. -/
theorem get_dH_square (l : Lattice) (n i j : Nat) (hr : l.rows = n) (hc : l.cols = n)
    (hi : i < n) (hj : j < n) :
    get_dH l (i, j) = some (2 * l.cell i j * nbrSum l i j) := by
  subst hr
  have hc' : l.cols = l.rows := hc
  have hr0 : 0 < l.rows := by omega
  have hc0 : 0 < l.cols := by omega
  have hwl : ∀ x : Int, wrapIdx x l.cols < l.rows := fun x => by
    rw [hc']; exact wrapIdx_lt l.rows hr0 x
  have hwr : ∀ x : Int, wrapIdx x l.rows < l.cols := fun x => by
    rw [hc']; exact wrapIdx_lt l.rows hr0 x
  have hj' : j < l.cols := by omega
  have e1 : bond l i j (-1, 0) = some
      (l.cell (wrapIdx ((i : Int) - 1) l.rows) j * l.cell i j,
       l.cell (wrapIdx ((i : Int) - 1) l.rows) j * -l.cell i j) := by
    have h := bond_eval l i j (-1, 0) hr0 hc0 (hwl _) (hwr _) hi hj'
    simpa [← sub_eq_add_neg, hc', wrapIdx_coe l.rows j hj] using h
  have e2 : bond l i j (1, 0) = some
      (l.cell (wrapIdx ((i : Int) + 1) l.rows) j * l.cell i j,
       l.cell (wrapIdx ((i : Int) + 1) l.rows) j * -l.cell i j) := by
    have h := bond_eval l i j (1, 0) hr0 hc0 (hwl _) (hwr _) hi hj'
    simpa [hc', wrapIdx_coe l.rows j hj] using h
  have e3 : bond l i j (0, -1) = some
      (l.cell i (wrapIdx ((j : Int) - 1) l.rows) * l.cell i j,
       l.cell i (wrapIdx ((j : Int) - 1) l.rows) * -l.cell i j) := by
    have h := bond_eval l i j (0, -1) hr0 hc0 (hwl _) (hwr _) hi hj'
    simpa [← sub_eq_add_neg, hc', wrapIdx_coe l.rows i hi] using h
  have e4 : bond l i j (0, 1) = some
      (l.cell i (wrapIdx ((j : Int) + 1) l.rows) * l.cell i j,
       l.cell i (wrapIdx ((j : Int) + 1) l.rows) * -l.cell i j) := by
    have h := bond_eval l i j (0, 1) hr0 hc0 (hwl _) (hwr _) hi hj'
    simpa [hc', wrapIdx_coe l.rows i hi] using h
  simp only [get_dH, e1, e2, e3, e4, Option.some_bind]
  congr 1
  simp only [nbrSum, hc']
  ring

/-! ### Flip lemmas -/

theorem flip_rows (l : Lattice) (i j : Nat) : (flip l i j).rows = l.rows := rfl

theorem flip_cols (l : Lattice) (i j : Nat) : (flip l i j).cols = l.cols := rfl

theorem readCell_flip_ne (l : Lattice) (i j a b : Nat) (h : ¬(a = i ∧ b = j)) :
    readCell (flip l i j) a b = readCell l a b := by
  simp [readCell, flip, h]

theorem readCell_flip_self (l : Lattice) (i j : Nat) (hi : i < l.rows) (hj : j < l.cols) :
    readCell (flip l i j) i j = some (-l.cell i j) := by
  simp [readCell, flip, hi, hj]

theorem bond_flip (l : Lattice) (i j : Nat) (d : Int × Int)
    (hr2 : 2 ≤ l.rows) (hc2 : 2 ≤ l.cols) (hi : i < l.rows) (hj : j < l.cols)
    (hd : d = (-1, 0) ∨ d = (1, 0) ∨ d = (0, -1) ∨ d = (0, 1)) :
    bond (flip l i j) i j d = (bond l i j d).map fun p => (-p.1, -p.2) := by
  have hr0 : 0 < l.rows := by omega
  have hc0 : 0 < l.cols := by omega
  have hne : ¬(wrapIdx ((i : Int) + d.1) l.cols = i ∧ wrapIdx ((j : Int) + d.2) l.rows = j) := by
    rcases hd with rfl | rfl | rfl | rfl
    · exact fun h => wrapIdx_shift_ne l.cols i (-1) hc2 (Or.inr rfl) h.1
    · exact fun h => wrapIdx_shift_ne l.cols i 1 hc2 (Or.inl rfl) h.1
    · exact fun h => wrapIdx_shift_ne l.rows j (-1) hr2 (Or.inr rfl) h.2
    · exact fun h => wrapIdx_shift_ne l.rows j 1 hr2 (Or.inl rfl) h.2
  have hnb := readCell_flip_ne l i j _ _ hne
  have hs := readCell_flip_self l i j hi hj
  simp only [bond, flip_rows, flip_cols]
  rw [pymod_of_pos _ _ hc0, pymod_of_pos _ _ hr0]
  rcases h : readCell l (wrapIdx ((i : Int) + d.1) l.cols) (wrapIdx ((j : Int) + d.2) l.rows)
    with _ | nb
  · simp [hnb, h]
  · simp [hnb, h, hs, readCell_of_lt l i j hi hj, mul_neg, neg_neg]

/-- `get_dH` negates under a flip of the probed site, provided no site is its
own neighbour (both dimensions at least 2). -/
theorem get_dH_flip_neg (l : Lattice) (i j : Nat) (hr2 : 2 ≤ l.rows) (hc2 : 2 ≤ l.cols)
    (hi : i < l.rows) (hj : j < l.cols) :
    (get_dH l (i, j)).map (fun d => -d) = get_dH (flip l i j) (i, j) := by
  simp only [get_dH]
  rw [bond_flip l i j (-1, 0) hr2 hc2 hi hj (Or.inl rfl),
    bond_flip l i j (1, 0) hr2 hc2 hi hj (Or.inr (Or.inl rfl)),
    bond_flip l i j (0, -1) hr2 hc2 hi hj (Or.inr (Or.inr (Or.inl rfl))),
    bond_flip l i j (0, 1) hr2 hc2 hi hj (Or.inr (Or.inr (Or.inr rfl)))]
  rcases h1 : bond l i j (-1, 0) with _ | b1 <;>
  rcases h2 : bond l i j (1, 0) with _ | b2 <;>
  rcases h3 : bond l i j (0, -1) with _ | b3 <;>
  rcases h4 : bond l i j (0, 1) with _ | b4 <;>
  simp [h1, h2, h3, h4] <;>
  ring

/-! ### The sweep loops -/

theorem foldlM_option_total {α β : Type} (P : α → Prop) (f : α → β → Option α)
    (l : List β) (a : α) (ha : P a)
    (hf : ∀ x b, P x → b ∈ l → ∃ y, f x b = some y ∧ P y) :
    ∃ y, l.foldlM f a = some y ∧ P y := by
  induction l generalizing a with
  | nil => exact ⟨a, rfl, ha⟩
  | cons b t ih =>
    obtain ⟨y, hy, hPy⟩ := hf a b ha (List.mem_cons_self b t)
    obtain ⟨z, hz, hPz⟩ := ih y hPy (fun x c hx hc => hf x c hx (List.mem_cons_of_mem b hc))
    refine ⟨z, ?_, hPz⟩
    rw [List.foldlM_cons, hy]
    simpa using hz

theorem foldlM_map_pair {α β γ : Type} (f : α → γ → Option α) (g : β → γ)
    (l : List β) (a : α) :
    (l.map g).foldlM f a = l.foldlM (fun x y => f x (g y)) a := by
  induction l generalizing a with
  | nil => rfl
  | cons b t ih => simp [List.foldlM_cons, ih]

theorem siteStep_total (T : Real) (rng : Nat → Real) (l : Lattice) (n i j k : Nat)
    (hr : l.rows = n) (hc : l.cols = n) (hi : i < n) (hj : j < n) :
    ∃ st : Lattice × Nat, siteStep T rng l i j k = some st ∧
      st.1.rows = n ∧ st.1.cols = n := by
  obtain ⟨dE, hdE⟩ : ∃ dE, get_dH l (i, j) = some dE :=
    ⟨_, get_dH_square l n i j hr hc hi hj⟩
  by_cases h1 : dE < 0
  · exact ⟨(flip l i j, k), by simp [siteStep, hdE, h1], hr, hc⟩
  · by_cases h2 : rng k < Real.exp (-(dE : Real) / T)
    · exact ⟨(flip l i j, k + 1), by simp [siteStep, hdE, h1, h2], hr, hc⟩
    · exact ⟨(l, k + 1), by simp [siteStep, hdE, h1, h2], hr, hc⟩

theorem sweep_total (T : Real) (rng : Nat → Real) (n : Nat) (st : Lattice × Nat)
    (hr : st.1.rows = n) (hc : st.1.cols = n) :
    ∃ st', sweep T rng n n st = some st' ∧ st'.1.rows = n ∧ st'.1.cols = n := by
  have h := foldlM_option_total (fun s : Lattice × Nat => s.1.rows = n ∧ s.1.cols = n)
    (fun s i => (List.range n).foldlM (fun s' j => siteStep T rng s'.1 i j s'.2) s)
    (List.range n) st ⟨hr, hc⟩ ?_
  · obtain ⟨y, hy, h1, h2⟩ := h
    exact ⟨y, hy, h1, h2⟩
  · intro x i hx hmem
    have hi : i < n := List.mem_range.mp hmem
    apply foldlM_option_total (fun s : Lattice × Nat => s.1.rows = n ∧ s.1.cols = n)
      _ _ _ hx
    intro x' j hx' hmem'
    have hj : j < n := List.mem_range.mp hmem'
    obtain ⟨st2, hst2, hr2, hc2⟩ :=
      siteStep_total T rng x'.1 n i j x'.2 hx'.1 hx'.2 hi hj
    exact ⟨st2, hst2, hr2, hc2⟩

theorem fiveSweeps_total (T : Real) (rng : Nat → Real) (n : Nat) (st : Lattice × Nat)
    (hr : st.1.rows = n) (hc : st.1.cols = n) :
    ∃ st', fiveSweeps T rng n n st = some st' ∧ st'.1.rows = n ∧ st'.1.cols = n := by
  have h := foldlM_option_total (fun s : Lattice × Nat => s.1.rows = n ∧ s.1.cols = n)
    (fun s _ => sweep T rng n n s) (List.range 5) st ⟨hr, hc⟩ ?_
  · obtain ⟨y, hy, h1, h2⟩ := h
    exact ⟨y, hy, h1, h2⟩
  · intro x _ hx _
    obtain ⟨st2, hst2, hr2, hc2⟩ := sweep_total T rng n x hx.1 hx.2
    exact ⟨st2, hst2, hr2, hc2⟩

theorem sweep_eq_raster (T : Real) (rng : Nat → Real) (w : Nat) :
    ∀ (h : Nat) (st : Lattice × Nat),
      sweep T rng h w st =
        (raster h w).foldlM (fun s p => siteStep T rng s.1 p.1 p.2 s.2) st := by
  intro h
  induction h with
  | zero => intro st; rfl
  | succ m ih =>
    intro st
    have hfold : ∀ s : Lattice × Nat,
        (List.range m).foldlM
          (fun s i => (List.range w).foldlM (fun s' j => siteStep T rng s'.1 i j s'.2) s) s
        = sweep T rng m w s := fun _ => rfl
    simp only [sweep, raster, List.range_succ, List.foldlM_append, List.foldlM_cons,
      List.foldlM_nil, foldlM_map_pair]
    rw [hfold, ih st]
    exact bind_congr fun s => by simp

theorem fiveSweeps_eq_chain (T : Real) (rng : Nat → Real) (h w : Nat) (st : Lattice × Nat) :
    fiveSweeps T rng h w st =
      sweep T rng h w st >>= sweep T rng h w >>= sweep T rng h w >>=
        sweep T rng h w >>= sweep T rng h w := by
  have h5 : List.range 5 = [0, 1, 2, 3, 4] := rfl
  simp [fiveSweeps, h5, List.foldlM_cons, List.foldlM_nil, bind_assoc, Option.bind_assoc]

theorem sampleLoop_spec (T : Real) (rng : Nat → Real) (n : Nat) :
    ∀ (N : Nat) (st : Lattice × Nat) (snaps : List Frame),
      st.1.rows = n → st.1.cols = n →
      ∃ res : List Frame × (Lattice × Nat),
        sampleLoop T rng n n N st snaps = some res ∧
        ∃ t : List Frame, res.1 = snaps ++ t ∧ t.length = N ∧
          (0 < N → t.head? = some (to_two_color st.1)) := by
  intro N
  induction N with
  | zero =>
    intro st snaps _ _
    exact ⟨(snaps, st), rfl, [], by simp, rfl, fun hlt => absurd hlt (lt_irrefl 0)⟩
  | succ m ih =>
    intro st snaps hr hc
    obtain ⟨st', hst', hr', hc'⟩ := fiveSweeps_total T rng n st hr hc
    obtain ⟨res, hres, t', ht', hlen, _⟩ := ih st' (snaps ++ [to_two_color st.1]) hr' hc'
    refine ⟨res, ?_, to_two_color st.1 :: t', ?_, by simp [hlen], fun _ => rfl⟩
    · simp only [sampleLoop, hst', Option.some_bind]
      exact hres
    · rw [ht']
      simp

/-! ### Energy difference for the pymc3 total energy -/

theorem flip01_rows (l : Lattice) (i j : Nat) : (flip01 l i j).rows = l.rows := rfl

theorem flip01_cols (l : Lattice) (i j : Nat) : (flip01 l i j).cols = l.cols := rfl

theorem flip01_cell_ne (l : Lattice) (i j a b : Nat) (h : ¬(a = i ∧ b = j)) :
    (flip01 l i j).cell a b = l.cell a b := by
  simp [flip01, h]

theorem flip01_cell_self (l : Lattice) (i j : Nat) :
    (flip01 l i j).cell i j = 1 - l.cell i j := by
  simp [flip01]

/-- A double sum changes only at the two listed positions. -/
theorem sum_sq_diff (R C : Nat) (F G : Nat → Nat → Int) (a b : Nat × Nat)
    (ha1 : a.1 < R) (ha2 : a.2 < C) (hb1 : b.1 < R) (hb2 : b.2 < C) (hab : a ≠ b)
    (hFG : ∀ p : Nat × Nat, p.1 < R → p.2 < C → p ≠ a → p ≠ b → G p.1 p.2 = F p.1 p.2) :
    ((Finset.range R).sum fun i => (Finset.range C).sum fun j => G i j)
      - ((Finset.range R).sum fun i => (Finset.range C).sum fun j => F i j)
    = (G a.1 a.2 - F a.1 a.2) + (G b.1 b.2 - F b.1 b.2) := by
  rw [← Finset.sum_product', ← Finset.sum_product', ← Finset.sum_sub_distrib]
  have hsub : ({a, b} : Finset (Nat × Nat)) ⊆ Finset.range R ×ˢ Finset.range C := by
    intro p hp
    rcases Finset.mem_insert.mp hp with rfl | hp
    · exact Finset.mem_product.mpr ⟨Finset.mem_range.mpr ha1, Finset.mem_range.mpr ha2⟩
    · rcases Finset.mem_singleton.mp hp with rfl
      exact Finset.mem_product.mpr ⟨Finset.mem_range.mpr hb1, Finset.mem_range.mpr hb2⟩
  rw [← Finset.sum_subset hsub ?_]
  · rw [Finset.sum_pair hab]
  · intro p hp hnp
    have h1 : p.1 < R := Finset.mem_range.mp (Finset.mem_product.mp hp).1
    have h2 : p.2 < C := Finset.mem_range.mp (Finset.mem_product.mp hp).2
    have hpa : p ≠ a := fun h => hnp (by rw [h]; exact Finset.mem_insert_self a {b})
    have hpb : p ≠ b := fun h =>
      hnp (by rw [h]; exact Finset.mem_insert_of_mem (Finset.mem_singleton_self b))
    rw [hFG p h1 h2 hpa hpb]
    ring

/-- Flipping one 0/1 cell changes the pymc3 total energy by exactly the
local flip delta. -/
theorem energy_diff (l : Lattice) (i j : Nat)
    (hr2 : 2 ≤ l.rows) (hc2 : 2 ≤ l.cols) (hi : i < l.rows) (hj : j < l.cols) :
    Magnetism.get_internal_energy (flip01 l i j) - Magnetism.get_internal_energy l
    = 2 * (2 * l.cell i j - 1) *
        ((2 * l.cell (wrapIdx ((i : Int) - 1) l.rows) j - 1) +
         (2 * l.cell ((i + 1) % l.rows) j - 1) +
         (2 * l.cell i (wrapIdx ((j : Int) - 1) l.cols) - 1) +
         (2 * l.cell i ((j + 1) % l.cols) - 1)) := by
  have hR0 : 0 < l.rows := by omega
  have hC0 : 0 < l.cols := by omega
  have hjb : (j + 1) % l.cols < l.cols := Nat.mod_lt _ hC0
  have hib : (i + 1) % l.rows < l.rows := Nat.mod_lt _ hR0
  have hFGh : ∀ p : Nat × Nat, p.1 < l.rows → p.2 < l.cols →
      p ≠ (i, j) → p ≠ (i, (j + 1) % l.cols) →
      (2 * (flip01 l i j).cell p.1 p.2 - 1) *
        (2 * (flip01 l i j).cell p.1 (wrapIdx ((p.2 : Int) - 1) l.cols) - 1)
      = (2 * l.cell p.1 p.2 - 1) *
        (2 * l.cell p.1 (wrapIdx ((p.2 : Int) - 1) l.cols) - 1) := by
    intro p h1 h2 hpa hpb
    have hc1 : ¬(p.1 = i ∧ p.2 = j) := fun h => hpa (Prod.ext h.1 h.2)
    have hc2' : ¬(p.1 = i ∧ wrapIdx ((p.2 : Int) - 1) l.cols = j) := by
      rintro ⟨hp1, hp2⟩
      exact hpb (Prod.ext hp1 (wrapIdx_sub_one_shift l.cols j p.2 hC0 hj h2 hp2))
    rw [flip01_cell_ne l i j p.1 p.2 hc1, flip01_cell_ne l i j p.1 _ hc2']
  have hFGv : ∀ p : Nat × Nat, p.1 < l.rows → p.2 < l.cols →
      p ≠ (i, j) → p ≠ ((i + 1) % l.rows, j) →
      (2 * (flip01 l i j).cell p.1 p.2 - 1) *
        (2 * (flip01 l i j).cell (wrapIdx ((p.1 : Int) - 1) l.rows) p.2 - 1)
      = (2 * l.cell p.1 p.2 - 1) *
        (2 * l.cell (wrapIdx ((p.1 : Int) - 1) l.rows) p.2 - 1) := by
    intro p h1 h2 hpa hpb
    have hc1 : ¬(p.1 = i ∧ p.2 = j) := fun h => hpa (Prod.ext h.1 h.2)
    have hc2' : ¬(wrapIdx ((p.1 : Int) - 1) l.rows = i ∧ p.2 = j) := by
      rintro ⟨hp1, hp2⟩
      exact hpb (Prod.ext (wrapIdx_sub_one_shift l.rows i p.1 hR0 hi h1 hp1) hp2)
    rw [flip01_cell_ne l i j p.1 p.2 hc1, flip01_cell_ne l i j _ p.2 hc2']
  have hdh := sum_sq_diff l.rows l.cols
    (fun p q => (2 * l.cell p q - 1) *
      (2 * l.cell p (wrapIdx ((q : Int) - 1) l.cols) - 1))
    (fun p q => (2 * (flip01 l i j).cell p q - 1) *
      (2 * (flip01 l i j).cell p (wrapIdx ((q : Int) - 1) l.cols) - 1))
    (i, j) (i, (j + 1) % l.cols) hi hj hi hjb
    (fun h => absurd (congrArg Prod.snd h).symm (succ_mod_ne_self l.cols j hc2 hj))
    hFGh
  have hdv := sum_sq_diff l.rows l.cols
    (fun p q => (2 * l.cell p q - 1) *
      (2 * l.cell (wrapIdx ((p : Int) - 1) l.rows) q - 1))
    (fun p q => (2 * (flip01 l i j).cell p q - 1) *
      (2 * (flip01 l i j).cell (wrapIdx ((p : Int) - 1) l.rows) q - 1))
    (i, j) ((i + 1) % l.rows, j) hi hj hib hj
    (fun h => absurd (congrArg Prod.fst h).symm (succ_mod_ne_self l.rows i hr2 hi))
    hFGv
  dsimp only at hdh hdv
  have e4 : wrapIdx ((((j + 1) % l.cols : Nat) : Int) - 1) l.cols = j :=
    wrapIdx_pred_succ l.cols j hC0 hj
  have e7 : wrapIdx ((((i + 1) % l.rows : Nat) : Int) - 1) l.rows = i :=
    wrapIdx_pred_succ l.rows i hR0 hi
  rw [e4] at hdh
  rw [e7] at hdv
  have e1 : (flip01 l i j).cell i j = 1 - l.cell i j := flip01_cell_self l i j
  have e2 : (flip01 l i j).cell i (wrapIdx ((j : Int) - 1) l.cols)
      = l.cell i (wrapIdx ((j : Int) - 1) l.cols) :=
    flip01_cell_ne l i j i _ (fun h => wrapIdx_sub_one_ne l.cols j hc2 hj h.2)
  have e3 : (flip01 l i j).cell i ((j + 1) % l.cols) = l.cell i ((j + 1) % l.cols) :=
    flip01_cell_ne l i j i _ (fun h => succ_mod_ne_self l.cols j hc2 hj h.2)
  have e5 : (flip01 l i j).cell (wrapIdx ((i : Int) - 1) l.rows) j
      = l.cell (wrapIdx ((i : Int) - 1) l.rows) j :=
    flip01_cell_ne l i j _ j (fun h => wrapIdx_sub_one_ne l.rows i hr2 hi h.1)
  have e6 : (flip01 l i j).cell ((i + 1) % l.rows) j = l.cell ((i + 1) % l.rows) j :=
    flip01_cell_ne l i j _ j (fun h => succ_mod_ne_self l.rows i hr2 hi h.1)
  rw [e1, e2, e3] at hdh
  rw [e1, e5, e6] at hdv
  simp only [Magnetism.get_internal_energy, flip01_rows, flip01_cols]
  linear_combination (-1 : Int) * hdh + (-1 : Int) * hdv

theorem toSpin_rows (l : Lattice) : (toSpin l).rows = l.rows := rfl

theorem toSpin_cols (l : Lattice) : (toSpin l).cols = l.cols := rfl

theorem toSpin_cell (l : Lattice) (a b : Nat) : (toSpin l).cell a b = 2 * l.cell a b - 1 := rfl

theorem bondRun_eq (i j : Nat) (d : Int × Int) (l : Lattice) :
    bondRun i j d l = (bond l i j d, l) := by
  rcases h1 : pymod ((i : Int) + d.1) l.cols with _ | ii <;>
    simp only [bondRun, bond, h1, Option.none_bind, Option.some_bind]
  rcases h2 : pymod ((j : Int) + d.2) l.rows with _ | jj <;>
    simp only [h2, Option.none_bind, Option.some_bind]
  rcases h3 : readCell l ii jj with _ | nb <;>
    simp only [h3, Option.none_bind, Option.some_bind]
  rcases h4 : readCell l i j with _ | s <;>
    simp only [h4, Option.none_bind, Option.some_bind]

/-! ### The claims -/

/-- Claim C1 (amended: restricted to square lattices — the swapped shape
unpacking makes `get_dH` fail on non-square lattices, see C3): for every
square lattice with cells in {+1,-1} and every in-range site, `get_dH`
returns the flip delta `2 * s(i,j) * (sum of the four periodically wrapped
von-Neumann neighbour spins)`; in particular on a 2×2 all-(+1) lattice it
returns exactly +8 at every site. -/
theorem get_dH_flip_delta_square (l : Lattice) (n i j : Nat)
    (hpm : ∀ a b, l.cell a b = 1 ∨ l.cell a b = -1)
    (hr : l.rows = n) (hc : l.cols = n) (hi : i < n) (hj : j < n) :
    get_dH l (i, j) = some (2 * l.cell i j * nbrSum l i j) ∧
    (∀ a b : Fin 2, get_dH allOnes2 ((a : Nat), (b : Nat)) = some 8) :=
  ⟨get_dH_square l n i j hr hc hi hj, by decide⟩

theorem get_dH_flip_delta_square_witness :
    get_dH allOnes2 (0, 0) = some (2 * allOnes2.cell 0 0 * nbrSum allOnes2 0 0) ∧
    (∀ a b : Fin 2, get_dH allOnes2 ((a : Nat), (b : Nat)) = some 8) :=
  get_dH_flip_delta_square allOnes2 2 0 0 (fun _ _ => Or.inl rfl) rfl rfl
    (by decide) (by decide)

/-- Claim C1 fails as stated on a non-square lattice: on the 2×3 all-(+1)
lattice at in-range site (0,0), `get_dH` raises `IndexError` (`none`)
instead of returning the flip delta `2 * s * (neighbour sum) = 8`. -/
theorem get_dH_nonsquare_counterexample :
    (∀ a b, latNS.cell a b = 1 ∨ latNS.cell a b = -1) ∧
    (0 : Nat) < latNS.rows ∧ (0 : Nat) < latNS.cols ∧
    get_dH latNS (0, 0) ≠ some (2 * latNS.cell 0 0 * nbrSum latNS 0 0) :=
  ⟨fun _ _ => Or.inl rfl, by decide, by decide, by decide⟩

/-- Claim C2: the per-site decision flips unconditionally without consuming
a random draw when `dH < 0`, and otherwise consumes exactly one uniform
draw `u = rng k` and flips iff `u < exp(-dH / T)`, leaving the spin
unchanged on rejection. -/
theorem metropolis_per_site_decision (T : Real) (rng : Nat → Real) (l : Lattice)
    (i j k : Nat) (dE : Int) (hT : 0 < T) (hdE : get_dH l (i, j) = some dE) :
    (dE < 0 → siteStep T rng l i j k = some (flip l i j, k)) ∧
    (0 ≤ dE → rng k < Real.exp (-(dE : Real) / T) →
      siteStep T rng l i j k = some (flip l i j, k + 1)) ∧
    (0 ≤ dE → ¬rng k < Real.exp (-(dE : Real) / T) →
      siteStep T rng l i j k = some (l, k + 1)) := by
  refine ⟨fun h1 => ?_, fun h1 h2 => ?_, fun h1 h2 => ?_⟩
  · simp [siteStep, hdE, h1]
  · simp [siteStep, hdE, not_lt.mpr h1, h2]
  · simp [siteStep, hdE, not_lt.mpr h1, h2]

theorem metropolis_per_site_decision_witness :
    ((-8 : Int) < 0 → siteStep 1 rng0 latNeg 0 0 0 = some (flip latNeg 0 0, 0)) ∧
    ((0 : Int) ≤ -8 → rng0 0 < Real.exp (-((-8 : Int) : Real) / 1) →
      siteStep 1 rng0 latNeg 0 0 0 = some (flip latNeg 0 0, 0 + 1)) ∧
    ((0 : Int) ≤ -8 → ¬rng0 0 < Real.exp (-((-8 : Int) : Real) / 1) →
      siteStep 1 rng0 latNeg 0 0 0 = some (latNeg, 0 + 1)) :=
  metropolis_per_site_decision 1 rng0 latNeg 0 0 0 (-8) (by norm_num) (by decide)

/-- Claim C3, failing input: the source unpacks `width, height =
lattice.shape` although the numpy shape is `(rows, cols)`, so the row
offset is reduced modulo the width and the column offset modulo the
height.  On a 3-row × 2-column all-(+1) lattice at in-range site (0,0)
the left-neighbour column index is computed as `(0 - 1) % 3 = 2`, out of
range for 2 columns, and `get_dH` raises `IndexError` (`none`). -/
theorem get_dH_swapped_modulus_failure :
    get_dH lat32 (0, 0) = none ∧
    (0 : Nat) < lat32.rows ∧ (0 : Nat) < lat32.cols ∧
    wrapIdx ((0 : Int) - 1) lat32.rows = 2 ∧ wrapIdx ((0 : Int) - 1) lat32.cols = 1 := by
  decide

/-- Claim C4 (amended: restricted to square lattices — a non-square run
aborts mid-sweep on the out-of-range index of C3): `simulate` performs
exactly `N` sampling steps, each capturing the snapshot of the current
lattice before its five sweeps, each sweep visiting the sites in row-major
raster order; the returned snapshot sequence has length exactly `N`. -/
theorem simulate_snapshot_structure (T : Real) (rng : Nat → Real)
    (bits : Nat → Nat → Bool) (n N : Nat) :
    (∃ snaps : List Frame, simulate T rng bits n n N = some snaps ∧
      snaps.length = N ∧
      (0 < N → snaps.head? = some (to_two_color (initLattice n n bits)))) ∧
    (∀ st, sweep T rng n n st
        = (raster n n).foldlM (fun s p => siteStep T rng s.1 p.1 p.2 s.2) st) ∧
    (∀ st, fiveSweeps T rng n n st =
      sweep T rng n n st >>= sweep T rng n n >>= sweep T rng n n >>=
        sweep T rng n n >>= sweep T rng n n) := by
  refine ⟨?_, fun st => sweep_eq_raster T rng n n st,
    fun st => fiveSweeps_eq_chain T rng n n st⟩
  obtain ⟨res, hres, t, ht, hlen, hhead⟩ :=
    sampleLoop_spec T rng n N (initLattice n n bits, 0) [] rfl rfl
  refine ⟨res.1, ?_, ?_, ?_⟩
  · simp [simulate, hres]
  · rw [ht]
    simpa using hlen
  · intro hN
    rw [ht]
    simpa using hhead hN

/-- Claim C4 fails as stated on a non-square configuration: with 2 rows and
3 columns even a single sampling step aborts (`none`), so no snapshot
sequence of length `N` is returned. -/
theorem simulate_nonsquare_none : simulate 1 rng0 bits0 2 3 1 = none := by
  have hdE : get_dH (initLattice 2 3 bits0) (0, 0) = none := by decide
  have h00 : siteStep 1 rng0 (initLattice 2 3 bits0) 0 0 0 = none := by
    unfold siteStep
    rw [hdE]
    rfl
  have h2 : List.range 2 = [0, 1] := rfl
  have h3 : List.range 3 = [0, 1, 2] := rfl
  have hsweep : sweep 1 rng0 2 3 (initLattice 2 3 bits0, 0) = none := by
    simp [sweep, h2, h3, List.foldlM_cons, List.foldlM_nil, h00]
  have h5 : List.range 5 = [0, 1, 2, 3, 4] := rfl
  have hfive : fiveSweeps 1 rng0 2 3 (initLattice 2 3 bits0, 0) = none := by
    simp [fiveSweeps, h5, List.foldlM_cons, List.foldlM_nil, hsweep]
  simp [simulate, sampleLoop, hfive]

/-- Claim C5, amended: the code performs no parameter validation at all —
`simulate` runs to completion for every real temperature `T` (including
`T ≤ 0`) and every square size (including 0), never signalling an
`InvalidParameter` condition. -/
theorem simulate_no_parameter_validation (T : Real) (rng : Nat → Real)
    (bits : Nat → Nat → Bool) (n N : Nat) :
    simulate T rng bits n n N ≠ none := by
  obtain ⟨res, hres, _⟩ := sampleLoop_spec T rng n N (initLattice n n bits, 0) [] rfl rfl
  simp [simulate, hres]

/-- Claim C5 fails as stated: at `T = -1` (not strictly positive) the
simulation does not fail before doing work — it completes and returns a
snapshot sequence of length 1. -/
theorem simulate_negative_T_runs :
    ∃ snaps : List Frame, simulate (-1) rng0 bits0 2 2 1 = some snaps ∧
      snaps.length = 1 := by
  obtain ⟨res, hres, t, ht, hlen, _⟩ :=
    sampleLoop_spec (-1) rng0 2 1 (initLattice 2 2 bits0, 0) [] rfl rfl
  refine ⟨res.1, by simp [simulate, hres], ?_⟩
  rw [ht]
  simpa using hlen

/-- Claim C6: every cell of a freshly created lattice is +1 or -1 and
the dimensions are as requested; and every per-site decision preserves the
dimensions and the ±1 cell invariant. -/
theorem lattice_spin_invariant :
    (∀ (h w : Nat) (bits : Nat → Nat → Bool),
      (initLattice h w bits).rows = h ∧ (initLattice h w bits).cols = w ∧
      ∀ a b, (initLattice h w bits).cell a b = 1 ∨ (initLattice h w bits).cell a b = -1) ∧
    (∀ (T : Real) (rng : Nat → Real) (l l' : Lattice) (i j k k' : Nat),
      siteStep T rng l i j k = some (l', k') →
      l'.rows = l.rows ∧ l'.cols = l.cols ∧
      ((∀ a b, l.cell a b = 1 ∨ l.cell a b = -1) →
        ∀ a b, l'.cell a b = 1 ∨ l'.cell a b = -1)) := by
  constructor
  · intro h w bits
    refine ⟨rfl, rfl, fun a b => ?_⟩
    by_cases hb : bits a b <;> simp [initLattice, hb]
  · intro T rng l l' i j k k' hstep
    rcases hdE : get_dH l (i, j) with _ | dE
    · simp [siteStep, hdE] at hstep
    · have hl' : l' = flip l i j ∨ l' = l := by
        by_cases h1 : dE < 0
        · have hs : siteStep T rng l i j k = some (flip l i j, k) := by
            simp [siteStep, hdE, h1]
          rw [hs] at hstep
          exact Or.inl (congrArg Prod.fst (Option.some.inj hstep)).symm
        · by_cases h2 : rng k < Real.exp (-(dE : Real) / T)
          · have hs : siteStep T rng l i j k = some (flip l i j, k + 1) := by
              simp [siteStep, hdE, h1, h2]
            rw [hs] at hstep
            exact Or.inl (congrArg Prod.fst (Option.some.inj hstep)).symm
          · have hs : siteStep T rng l i j k = some (l, k + 1) := by
              simp [siteStep, hdE, h1, h2]
            rw [hs] at hstep
            exact Or.inr (congrArg Prod.fst (Option.some.inj hstep)).symm
      rcases hl' with rfl | rfl
      · refine ⟨rfl, rfl, fun hpm a b => ?_⟩
        by_cases hab : a = i ∧ b = j
        · obtain ⟨rfl, rfl⟩ := hab
          rcases hpm a b with h1 | h1 <;> simp [flip, h1]
        · rcases hpm a b with h1 | h1 <;> simp [flip, hab, h1]
      · exact ⟨rfl, rfl, fun hpm => hpm⟩

theorem lattice_spin_invariant_witness :
    (flip latNeg 0 0).rows = latNeg.rows ∧ (flip latNeg 0 0).cols = latNeg.cols ∧
    (∀ a b, (flip latNeg 0 0).cell a b = 1 ∨ (flip latNeg 0 0).cell a b = -1) := by
  have hd : get_dH latNeg (0, 0) = some (-8) := by decide
  have hstep : siteStep 1 rng0 latNeg 0 0 0 = some (flip latNeg 0 0, 0) := by
    unfold siteStep
    rw [hd, Option.map_some']
    norm_num
  have h := lattice_spin_invariant.2 1 rng0 latNeg (flip latNeg 0 0) 0 0 0 0 hstep
  exact ⟨h.1, h.2.1, h.2.2 (fun a b => by
    by_cases hab : a = 0 ∧ b = 0 <;> simp [latNeg, hab])⟩

/-- Claim C7 (amended: both dimensions at least 2, so that no site is its
own wrapped neighbour — the law fails on a 1×1 lattice): for every ±1
lattice and in-range site, the negation of `get_dH` equals `get_dH`
computed at the same site after flipping that site's spin. -/
theorem flip_delta_reversibility (l : Lattice) (i j : Nat)
    (hpm : ∀ a b, l.cell a b = 1 ∨ l.cell a b = -1)
    (hr2 : 2 ≤ l.rows) (hc2 : 2 ≤ l.cols) (hi : i < l.rows) (hj : j < l.cols) :
    (get_dH l (i, j)).map (fun d => -d) = get_dH (flip l i j) (i, j) :=
  get_dH_flip_neg l i j hr2 hc2 hi hj

theorem flip_delta_reversibility_witness :
    (get_dH allOnes2 (0, 0)).map (fun d => -d) = get_dH (flip allOnes2 0 0) (0, 0) :=
  flip_delta_reversibility allOnes2 0 0 (fun _ _ => Or.inl rfl)
    (by decide) (by decide) (by decide) (by decide)

/-- Claim C7 fails as stated on the 1×1 all-(+1) lattice, whose single site
is its own neighbour four times over: `get_dH` returns 8 both before and
after the flip, so the negation law does not hold. -/
theorem flip_delta_reversibility_1x1_counterexample :
    (∀ a b, lat1.cell a b = 1 ∨ lat1.cell a b = -1) ∧
    (0 : Nat) < lat1.rows ∧ (0 : Nat) < lat1.cols ∧
    (get_dH lat1 (0, 0)).map (fun d => -d) ≠ get_dH (flip lat1 0 0) (0, 0) :=
  ⟨fun _ _ => Or.inl rfl, by decide, by decide, by decide⟩

/-- Claim C8: `get_dH` is a pure probe — running it with the lattice state
threaded through every array access returns the lattice unchanged, and its
value agrees with the direct translation. -/
theorem get_dH_pure_probe (l : Lattice) (loc : Nat × Nat) :
    (get_dH_run l loc).2 = l ∧ (get_dH_run l loc).1 = get_dH l loc := by
  rcases h1 : bond l loc.1 loc.2 (-1, 0) with _ | b1 <;>
  rcases h2 : bond l loc.1 loc.2 (1, 0) with _ | b2 <;>
  rcases h3 : bond l loc.1 loc.2 (0, -1) with _ | b3 <;>
  rcases h4 : bond l loc.1 loc.2 (0, 1) with _ | b4 <;>
  simp [get_dH_run, get_dH, bondRun_eq, h1, h2, h3, h4]

/-- Claim C9 (amended: square side at least 2 — on a 1×1 lattice the local
delta is 8 while the total-energy difference is 0): for every square 0/1
lattice, the manual `get_dH` on the corresponding ±1 lattice equals the
pymc3 `get_internal_energy` of the lattice with the site flipped minus
that of the original lattice. -/
theorem get_dH_matches_internal_energy (l : Lattice) (i j : Nat)
    (h01 : ∀ a b, l.cell a b = 0 ∨ l.cell a b = 1)
    (hsq : l.rows = l.cols) (h2 : 2 ≤ l.rows) (hi : i < l.rows) (hj : j < l.cols) :
    get_dH (toSpin l) (i, j)
      = some (Magnetism.get_internal_energy (flip01 l i j)
          - Magnetism.get_internal_energy l) := by
  have hc2 : 2 ≤ l.cols := by omega
  have hL := get_dH_square (toSpin l) l.rows i j rfl hsq.symm hi (by omega)
  rw [hL, energy_diff l i j h2 hc2 hi hj]
  simp only [Option.some.injEq, nbrSum, toSpin_rows, toSpin_cols, toSpin_cell, wrapIdx_add_one]

theorem get_dH_matches_internal_energy_witness :
    get_dH (toSpin V2) (0, 0)
      = some (Magnetism.get_internal_energy (flip01 V2 0 0)
          - Magnetism.get_internal_energy V2) :=
  get_dH_matches_internal_energy V2 0 0
    (fun a b => by by_cases hab : a = b <;> simp [V2, hab])
    rfl (by decide) (by decide) (by decide)

/-- Claim C9 fails as stated on the degenerate 1×1 lattice: the local delta
is 8 but the total-energy difference is 0. -/
theorem internal_energy_1x1_counterexample :
    (∀ a b, lat1.cell a b = 0 ∨ lat1.cell a b = 1) ∧
    lat1.rows = lat1.cols ∧ (0 : Nat) < lat1.rows ∧
    get_dH (toSpin lat1) (0, 0)
      ≠ some (Magnetism.get_internal_energy (flip01 lat1 0 0)
          - Magnetism.get_internal_energy lat1) :=
  ⟨fun _ _ => Or.inr rfl, rfl, by decide, by decide⟩

/-- Claim C10: a zero-energy move is always accepted — when `get_dH`
returns 0 and the uniform draw `u = rng k` lies in [0, 1), the per-site
decision applies the flip, because `u < exp(-0 / T) = 1`. -/
theorem zero_delta_always_accepted (T : Real) (rng : Nat → Real) (l : Lattice)
    (i j k : Nat) (hT : 0 < T) (h0 : get_dH l (i, j) = some 0)
    (hu0 : 0 ≤ rng k) (hu1 : rng k < 1) :
    siteStep T rng l i j k = some (flip l i j, k + 1) := by
  simp [siteStep, h0, Real.exp_zero, hu1]

theorem zero_delta_always_accepted_witness :
    siteStep 1 rng0 latMix 0 0 0 = some (flip latMix 0 0, 0 + 1) :=
  zero_delta_always_accepted 1 rng0 latMix 0 0 0 (by norm_num) (by decide)
    (by simp [rng0]) (by simp [rng0])

end Ising
